import Mathlib

/-!
Verification development for the `datachains_sim` overlay simulation.

The repository's `section.rs` and `network.rs` are embedded below.  The
modules `prefix.rs`, `node.rs`, `chain.rs`, `params.rs` and `message.rs`
are declared in `main.rs` but their sources are not available; the
definitions for those parts are modelled from the specification and each
carries a doc comment saying so.  Rust `&mut self` methods become
functions `Section → (Section × List Response)`; methods that can panic
return `Option` (with `none` standing for the panic).  The external
Keccak hashing is abstracted as a parameter record `HashFns`; the
derived operations `toU64` and `trailingZeros` are defined concretely.
-/

namespace Datachains

/-- Modelled from the spec: a name is a 64-bit unsigned integer (§3).
We use `Nat`; all names produced by the program are `< 2^64`. -/
abbrev Name := Nat

/-- Modelled from the spec (missing `prefix.rs`): a bit string of length
0–64 identifying a subtree of the binary name space.  `bits` holds the
bit string as a natural number (most-significant first), `len` its
length. -/
structure Pfx where
  bits : Nat
  len : Nat
deriving DecidableEq, Repr

namespace Pfx

/-- Modelled from the spec: the startup empty bit string. -/
def EMPTY : Pfx := ⟨0, 0⟩

/-- Modelled from the spec: a prefix matches a name when the prefix bits
equal the name's most-significant bits (§2, §3). -/
def pmatches (p : Pfx) (n : Name) : Bool := n / 2 ^ (64 - p.len) == p.bits

/-- Modelled from the spec: `split() → (P·0, P·1)` (§3).  The assertion
in `try_split` ("assert neither equals `self.prefix` (else we're at
length 64)") shows that at the maximum length the split returns the
prefix itself, so the model caps the length at 64. -/
def splitp (p : Pfx) : Pfx × Pfx :=
  if 64 ≤ p.len then (p, p)
  else (⟨2 * p.bits, p.len + 1⟩, ⟨2 * p.bits + 1, p.len + 1⟩)

/-- Modelled from the spec: `sibling()` flips the last bit (§3). -/
def sibling (p : Pfx) : Pfx :=
  if p.len = 0 then p
  else if p.bits % 2 = 0 then ⟨p.bits + 1, p.len⟩ else ⟨p.bits - 1, p.len⟩

/-- Modelled from the spec: `shorten()` drops the last bit (§3). -/
def shorten (p : Pfx) : Pfx :=
  if p.len = 0 then p else ⟨p.bits / 2, p.len - 1⟩

/-- Modelled from the spec: `is_ancestor(Q)` holds when `Q` extends `P`;
the router's use over "descendant (or equal)" sections (§4.3) shows it
is reflexive. -/
def is_ancestor (p q : Pfx) : Bool :=
  p.len ≤ q.len && q.bits / 2 ^ (q.len - p.len) == p.bits

/-- Modelled from the spec: `substituted_in(N)` replaces the
most-significant `len` bits of `N` with the prefix bits (§3). -/
def substituted_in (p : Pfx) (n : Name) : Name :=
  p.bits * 2 ^ (64 - p.len) + n % 2 ^ (64 - p.len)

end Pfx

/-- Modelled from the spec (missing `node.rs`): an overlay participant
with a name, an integer age and an elder flag (§2, §3). -/
structure Node where
  name : Name
  age : Nat
  elder : Bool
deriving DecidableEq, Repr

/-- Modelled from the spec (missing `params.rs`): the tunable constants
used by the core (§6).  Fields irrelevant to the core (seed, file,
verbosity, ...) are omitted. -/
structure Params where
  group_size : Nat
  init_age : Nat
  adult_age : Nat
  max_section_size : Nat
  max_relocation_attempts : Nat
  max_infants_per_section : Nat
deriving DecidableEq, Repr

/-- Modelled from the spec: `quorum = group_size / 2 + 1` (Glossary). -/
def Params.quorum (p : Params) : Nat := p.group_size / 2 + 1

namespace Node

/-- Modelled from the spec: a node is created non-elder; the elder flag
is only set by promotion (§4.4). -/
def new (n : Name) (a : Nat) : Node := ⟨n, a, false⟩

/-- Modelled from the spec: infant iff `age < adult_age` (§3). -/
def is_infant (params : Params) (node : Node) : Bool := node.age < params.adult_age

/-- Modelled from the spec: adult iff `age ≥ adult_age` (§3). -/
def is_adult (params : Params) (node : Node) : Bool := params.adult_age ≤ node.age

/-- Modelled from the spec: the elder flag (§3). -/
def is_elder (node : Node) : Bool := node.elder

/-- Modelled from the spec: ages only change via relocation, `+1` (§3). -/
def increment_age (node : Node) : Node := { node with age := node.age + 1 }

/-- Modelled from the spec: promotion sets the elder flag (§4.4). -/
def promote (node : Node) : Node := { node with elder := true }

/-- Modelled from the spec: demotion clears the elder flag (§4.4). -/
def demote (node : Node) : Node := { node with elder := false }

end Node

/-- Modelled from the spec (missing `node.rs`): count of adults among
the given nodes (§4.5, §4.6). -/
def count_adults (params : Params) (nodes : List Node) : Nat :=
  nodes.countP (fun node => node.is_adult params)

/-- Modelled from the spec (missing `node.rs`): count of infants (§4.2,
step 3 of `handle_live`). -/
def count_infants (params : Params) (nodes : List Node) : Nat :=
  nodes.countP (fun node => node.is_infant params)

/-- Modelled from the spec (missing `node.rs`): count of adults whose
names match the given prefix (§4.5). -/
def count_matching_adults (params : Params) (p : Pfx) (nodes : List Node) : Nat :=
  nodes.countP (fun node => node.is_adult params && p.pmatches node.name)

/-- Modelled from the spec (missing `node.rs`): `by_age` sorts ascending
by `(age, name)`, so that reversing yields the `(age DESC, name DESC)`
order of §4.4. -/
def by_age (nodes : List Node) : List Node :=
  nodes.mergeSort (fun a b => a.age < b.age || (a.age == b.age && a.name ≤ b.name))

/-- Modelled from the spec (missing `chain.rs`): block events (§3). -/
inductive Event where
  | Live
  | Dead
  | Gone
deriving DecidableEq, Repr

/-- Modelled from the spec (missing `chain.rs`): a block `(event, name,
age)` (§3). -/
structure Block where
  event : Event
  name : Name
  age : Nat
deriving DecidableEq, Repr

/-- Modelled from the spec: `Block::new` (§3). -/
def Block.new (e : Event) (n : Name) (a : Nat) : Block := ⟨e, n, a⟩

/-- Modelled from the spec (missing `chain.rs`): an ordered append-only
sequence of blocks (§3). -/
abbrev Chain := List Block

/-- Modelled from the spec: `insert(event, name, age)` appends (§3). -/
def Chain.insert (c : Chain) (e : Event) (n : Name) (a : Nat) : Chain :=
  c ++ [Block.new e n a]

/-- Modelled from the spec: `last_live()` returns the most recent `Live`
block or `None` (§3). -/
def Chain.last_live (c : Chain) : Option Block :=
  c.reverse.find? (fun b => b.event == Event.Live)

/-- Modelled from the spec (missing `chain.rs`): the hash functions are
an external keyed Keccak-family hash, so the model abstracts them:
`blockHash` hashes a block, `rehash` rehashes an existing 256-bit hash
(`Hash::hash`), `newFromU64` builds a hash from a 64-bit value
(`Hash::new_from_u64`).  Hash values are naturals below `2 ^ 256`. -/
structure HashFns where
  blockHash : Block → Nat
  rehash : Nat → Nat
  newFromU64 : Nat → Nat

/-- Modelled from the spec: `to_u64()` takes the low 64 bits (§3). -/
def toU64 (h : Nat) : Nat := h % 2 ^ 64

/-- Modelled from the spec: count of trailing zero bits over the whole
256-bit value (§3); a zero hash has 256 of them. -/
def trailingZerosAux : Nat → Nat → Nat
  | 0, _ => 0
  | fuel + 1, h => if h % 2 = 0 then trailingZerosAux fuel (h / 2) + 1 else 0

/-- Modelled from the spec: `trailing_zeros()` of a 256-bit hash (§3). -/
def trailingZeros (h : Nat) : Nat := trailingZerosAux 256 h

/-! Association-list stand-ins for the deterministic `HashMap` /
`HashSet` aliases of `main.rs` (lines 246–247). -/

/-- The values of a map, in iteration order (`HashMap::values`). -/
def mapValues {α : Type} (m : List (Name × α)) : List α := m.map Prod.snd

/-- Key membership (`HashMap::contains_key`). -/
def mapContains {α : Type} (m : List (Name × α)) (k : Name) : Bool :=
  m.any (fun kv => kv.1 == k)

/-- `HashMap::insert`: replace the binding of an existing key, otherwise
add a new one. -/
def mapInsert {α : Type} (m : List (Name × α)) (k : Name) (v : α) : List (Name × α) :=
  if mapContains m k then m.map (fun kv => if kv.1 == k then (k, v) else kv)
  else m ++ [(k, v)]

/-- `HashMap::remove`: the removed value and the remaining map, or
`none` when the key is absent. -/
def mapRemove {α : Type} (m : List (Name × α)) (k : Name) :
    Option (α × List (Name × α)) :=
  match m.find? (fun kv => kv.1 == k) with
  | some kv => some (kv.2, m.filter (fun kv => kv.1 != k))
  | none => none

/-- `HashSet::insert` (no duplicates). -/
def setInsert (s : List Name) (k : Name) : List Name :=
  if s.contains k then s else s ++ [k]

/-- `HashSet::remove`: whether the element was present, and the set
without it. -/
def setRemove (s : List Name) (k : Name) : Bool × List Name :=
  (s.contains k, s.filter (fun x => x != k))

/-- Modelled from the spec (missing `message.rs`): the request sum type
(§4.1). -/
inductive Request where
  | Live (node : Node)
  | Dead (name : Name)
  | Merge (parentPfx : Pfx)
  | RelocateRequest (src : Pfx) (dst : Name) (node_name : Name)
  | RelocateAccept (dst : Name) (node_name : Name)
  | RelocateReject (dst : Name) (node_name : Name)
  | Relocate (dst : Name) (node : Node)
deriving DecidableEq, Repr

/-- Section lifecycle state (src/section.rs lines 627–632). -/
inductive State where
  | Stable
  | Splitting
  | Merging (parentPfx : Pfx)
deriving DecidableEq, Repr

/-- The per-section state (src/section.rs lines 14–22).  The first field
is named `prefix` in the source; it is rendered `pfx` here. -/
structure Section where
  pfx : Pfx
  state : State
  nodes : List (Name × Node)
  chain : Chain
  requests : List Request
  incoming_relocations : List (Name × Name)
  outgoing_relocations : List Name
deriving DecidableEq, Repr

/-- `Section::new` (src/section.rs lines 25–35). -/
def Section.new (p : Pfx) : Section :=
  { pfx := p, state := State.Stable, nodes := [], chain := [], requests := [],
    incoming_relocations := [], outgoing_relocations := [] }

/-- Modelled from the spec (missing `message.rs`): the response sum type
(§4.1). -/
inductive Response where
  | Send (p : Pfx) (request : Request)
  | Merge (sec : Section) (old_pfx : Pfx)
  | Split (sec0 sec1 : Section) (old_pfx : Pfx)
  | Reject (node : Node)
  | Relocate (dst : Name) (node : Node)
  | RelocateRequest (src : Pfx) (dst : Name) (node_name : Name)
deriving DecidableEq, Repr

/-- Stable sort by a natural-number key (Rust `sort_by_key`; the core
`mergeSort` is stable, as is Rust's sort). -/
def sortByKey {α : Type} (key : α → Nat) (l : List α) : List α :=
  l.mergeSort (fun a b => key a ≤ key b)

namespace Section

/-- `Section::relocation_candidates` (src/section.rs lines 496–516):
nodes whose age is at most the hash's trailing-zeros count. -/
def relocation_candidates (sec : Section) (h : Nat) : List Node :=
  let tz := trailingZeros h
  (mapValues sec.nodes).filter (fun node => node.age ≤ tz)

/-- The XOR of all candidate names (the fold at src/section.rs line
635). -/
def xorNames (nodes : List Node) : Nat :=
  nodes.foldl (fun total node => total ^^^ node.name) 0

/-- `break_ties` (src/section.rs lines 634–638): XOR all candidate
names, sort by `name XOR total`, take the first. -/
def break_ties (nodes : List Node) : Option Name :=
  let total := xorNames nodes
  let sorted := sortByKey (fun node => node.name ^^^ total) nodes
  sorted.head?.map Node.name

/-- `Section::check_relocate` (src/section.rs lines 471–494): keep the
maximum-age candidates (sort descending by age, truncate at the first
age change), then the single one or the tie-break winner. -/
def check_relocate (sec : Section) (h : Nat) : Option Name :=
  let candidates := relocation_candidates sec h
  if candidates.isEmpty then none
  else
    let sorted := sortByKey (fun node => (2 ^ 64 - 1) - node.age) candidates
    match sorted with
    | [] => none
    | c :: _ =>
      match sorted.takeWhile (fun node => node.age == c.age) with
      | [single] => some single.name
      | top => break_ties top

/-- The rehashing loop inside `Section::try_relocate` (src/section.rs
lines 452–466), returning the chosen node and the successful hash. -/
def try_relocate_loop (H : HashFns) (sec : Section) : Nat → Nat → Option (Name × Nat)
  | 0, _ => none
  | n + 1, h =>
    match check_relocate sec h with
    | some node_name => some (node_name, h)
    | none => try_relocate_loop H sec n (H.rehash h)

/-- `Section::try_relocate` (src/section.rs lines 439–469). -/
def try_relocate (H : HashFns) (params : Params) (sec : Section) (live_block : Block) :
    Section × List Response :=
  if count_adults params (mapValues sec.nodes) ≤ params.group_size then (sec, [])
  else if !sec.outgoing_relocations.isEmpty then (sec, [])
  else
    match try_relocate_loop H sec params.max_relocation_attempts (H.blockHash live_block) with
    | some (node_name, h) =>
      ({ sec with outgoing_relocations := setInsert sec.outgoing_relocations node_name },
       [Response.RelocateRequest sec.pfx (toU64 h) node_name])
    | none => (sec, [])

/-- The loop body of `Section::update_elders` (src/section.rs lines
534–548): threads the rebuilt node map, the chain and the promoted-node
list while demoting nodes leaving the elder set and promoting nodes
entering it. -/
def elder_step (old newE : List Name) (acc : List (Name × Node) × Chain × List Node)
    (kv : Name × Node) : List (Name × Node) × Chain × List Node :=
  let node := kv.2
  let o := old.contains node.name
  let n := newE.contains node.name
  if o && !n then
    (acc.1 ++ [(kv.1, node.demote)], acc.2.1.insert Event.Gone node.name node.age, acc.2.2)
  else if n && !o then
    (acc.1 ++ [(kv.1, node.promote)], acc.2.1.insert Event.Live node.name node.age,
     acc.2.2 ++ [Node.new node.name node.age])
  else
    (acc.1 ++ [(kv.1, node)], acc.2.1, acc.2.2)

/-- `Section::update_elders` (src/section.rs lines 518–556): the new
elder set is the top-`group_size` nodes of `by_age` reversed; demotions
and promotions are written to the chain; with the `relocate` flag and a
single promotion, `try_relocate` is invoked. -/
def update_elders (H : HashFns) (params : Params) (sec : Section) (relocate : Bool) :
    Section × List Response :=
  let old : List Name := ((mapValues sec.nodes).filter Node.is_elder).map Node.name
  let newE : List Name :=
    ((by_age (mapValues sec.nodes)).reverse.take params.group_size).map Node.name
  let r := sec.nodes.foldl (elder_step old newE) ([], sec.chain, [])
  let sec' := { sec with nodes := r.1, chain := r.2.1 }
  if relocate && r.2.2.length == 1 then
    match r.2.2.head? with
    | some node => try_relocate H params sec' (Block.new Event.Live node.name node.age)
    | none => (sec', [])
  else (sec', [])

/-- The `split` partition helper (src/section.rs lines 640–656): items
matching the first child go left, items matching the second go right,
anything else is `unreachable!` (modelled as `none`). -/
def splitPart {α : Type} (key : α → Name) (p0 p1 : Pfx) (l : List α) :
    Option (List α × List α) :=
  if l.all (fun a => p0.pmatches (key a) || p1.pmatches (key a)) then
    some (l.partition (fun a => p0.pmatches (key a)))
  else none

/-- `Section::try_split` (src/section.rs lines 337–410).  `none` models
the maximum-prefix-length panic (and the unreachable partition case);
when the limit is not met the result is `some (sec, [])`. -/
def try_split (H : HashFns) (params : Params) (sec : Section) :
    Option (Section × List Response) :=
  let pr := sec.pfx.splitp
  if pr.1 == sec.pfx || pr.2 == sec.pfx then none
  else
    let num_adults0 := count_matching_adults params pr.1 (mapValues sec.nodes)
    let num_adults1 := count_matching_adults params pr.2 (mapValues sec.nodes)
    let limit := 2 * params.group_size - params.quorum
    if limit ≤ num_adults0 && limit ≤ num_adults1 then do
      let (nodes0, nodes1) ← splitPart (fun kv => kv.1) pr.1 pr.2 sec.nodes
      let (out0, out1) ← splitPart (fun name => name) pr.1 pr.2 sec.outgoing_relocations
      let (inc0, inc1) ← splitPart (fun kv => kv.2) pr.1 pr.2 sec.incoming_relocations
      let s0 := { Section.new pr.1 with chain := sec.chain, nodes := nodes0 }
      let s0 := (update_elders H params s0 false).1
      let s1 := { Section.new pr.2 with chain := sec.chain, nodes := nodes1 }
      let s1 := (update_elders H params s1 false).1
      let s0 := { s0 with outgoing_relocations := out0, incoming_relocations := inc0 }
      let s1 := { s1 with outgoing_relocations := out1, incoming_relocations := inc1 }
      pure ({ sec with
              nodes := [], outgoing_relocations := [],
              incoming_relocations := [], state := State.Splitting },
            [Response.Split s0 s1 sec.pfx])
    else
      some (sec, [])

/-- `Section::forward` (src/section.rs lines 590–618): `some none` means
no forwarding (Stable), `some (some p)` forwards to `p`, `none` is the
unreachable case while Splitting. -/
def forward (sec : Section) (name : Name) : Option (Option Pfx) :=
  match sec.state with
  | State.Stable => some none
  | State.Splitting =>
    let pr := sec.pfx.splitp
    if pr.1.pmatches name then some (some pr.1)
    else if pr.2.pmatches name then some (some pr.2)
    else none
  | State.Merging p => some (some p)

/-- `Section::add_node` (src/section.rs lines 558–565). -/
def add_node (sec : Section) (node : Node) : Section :=
  { sec with nodes := mapInsert sec.nodes node.name node }

/-- The tail of `Section::handle_live` after the new node is determined
(src/section.rs lines 139–155). -/
def handle_live_post (H : HashFns) (params : Params) (sec : Section) (startup : Bool)
    (new_node : Node) : Option (Section × List Response) := do
  let age := new_node.age
  let name := new_node.name
  let is_adult := new_node.is_adult params
  let sec := add_node sec new_node
  let sec := (update_elders H params sec false).1
  let (sec, responses) ← try_split H params sec
  if !responses.isEmpty then pure (sec, responses)
  else if is_adult && !startup then
    pure (try_relocate H params sec (Block.new Event.Live name age))
  else pure (sec, [])

/-- `Section::handle_live` (src/section.rs lines 120–156). -/
def handle_live (H : HashFns) (params : Params) (sec : Section) (node : Node) :
    Option (Section × List Response) := do
  match ← forward sec node.name with
  | some p => pure (sec, [Response.Send p (Request.Live node)])
  | none =>
    let startup := sec.pfx == Pfx.EMPTY
    if startup then handle_live_post H params sec true (Node.new node.name params.adult_age)
    else if node.is_infant params &&
        params.max_infants_per_section ≤ count_infants params (mapValues sec.nodes) then
      pure (sec, [Response.Reject node])
    else handle_live_post H params sec false node

/-- `Section::handle_merge` (src/section.rs lines 173–218). -/
def handle_merge (sec : Section) (parentPfx : Pfx) : Section × List Response :=
  match sec.state with
  | State.Merging old_parent =>
    if old_parent.is_ancestor parentPfx then (sec, [])
    else (sec, [Response.Send old_parent (Request.Merge parentPfx)])
  | State.Splitting =>
    let pr := sec.pfx.splitp
    (sec, [Response.Send pr.1 (Request.Merge parentPfx),
           Response.Send pr.2 (Request.Merge parentPfx)])
  | State.Stable =>
    let section' := { Section.new parentPfx with
                      chain := sec.chain, nodes := sec.nodes,
                      outgoing_relocations := sec.outgoing_relocations,
                      incoming_relocations := sec.incoming_relocations }
    ({ sec with
       nodes := [], outgoing_relocations := [],
       incoming_relocations := [], state := State.Merging parentPfx },
     [Response.Merge section' sec.pfx])

/-- The new-name computation of `Section::handle_relocate`
(src/section.rs lines 236–248): bias the random name into the child
with fewer matching adults; on a tie the second child is used. -/
def relocate_target (params : Params) (sec : Section) (rand : Name) : Name :=
  let pr := sec.pfx.splitp
  let count0 := count_matching_adults params pr.1 (mapValues sec.nodes)
  let count1 := count_matching_adults params pr.2 (mapValues sec.nodes)
  if count0 < count1 then pr.1.substituted_in rand else pr.2.substituted_in rand

/-- `Section::handle_relocate` (src/section.rs lines 220–258); `rand`
models the external `random::gen()` draw. -/
def handle_relocate (H : HashFns) (params : Params) (sec : Section) (dst : Name)
    (node : Node) (rand : Name) : Option (Section × List Response) := do
  match ← forward sec node.name with
  | some p => pure (sec, [Response.Send p (Request.Relocate dst node)])
  | none =>
    match mapRemove sec.incoming_relocations node.name with
    | none => pure (sec, [])
    | some (_, incoming') =>
      let sec := { sec with incoming_relocations := incoming' }
      let new_name := relocate_target params sec rand
      handle_live H params sec (Node.new new_name node.age)

/-- `Section::handle_relocate_request` (src/section.rs lines 260–285). -/
def handle_relocate_request (params : Params) (sec : Section) (src : Pfx)
    (dst node_name : Name) : Section × List Response :=
  if !sec.incoming_relocations.isEmpty || params.max_section_size ≤ sec.nodes.length then
    (sec, [Response.Send src (Request.RelocateReject dst node_name)])
  else
    ({ sec with incoming_relocations := mapInsert sec.incoming_relocations node_name dst },
     [Response.Send src (Request.RelocateAccept dst node_name)])

/-- `Section::handle_relocate_accept` (src/section.rs lines 287–313). -/
def handle_relocate_accept (sec : Section) (dst node_name : Name) :
    Option (Section × List Response) := do
  match ← forward sec node_name with
  | some p => pure (sec, [Response.Send p (Request.RelocateAccept dst node_name)])
  | none =>
    let rm := setRemove sec.outgoing_relocations node_name
    if rm.1 then
      let sec := { sec with outgoing_relocations := rm.2 }
      match mapRemove sec.nodes node_name with
      | some (node, nodes') =>
        let sec := { sec with nodes := nodes' }
        let node := node.increment_age
        if node.is_elder then
          let node := node.demote
          let sec := { sec with chain := sec.chain.insert Event.Dead node_name node.age }
          pure (sec, [Response.Relocate dst node])
        else
          pure (sec, [Response.Relocate dst node])
      | none => pure (sec, [])
    else pure (sec, [])

/-- `Section::handle_relocate_reject` (src/section.rs lines 315–335):
takes `&self`, so the section itself is never modified; while the node
name is still in `outgoing_relocations`, every reject elicits one new
`RelocateRequest` with a rehashed destination. -/
def handle_relocate_reject (H : HashFns) (sec : Section) (dst node_name : Name) :
    List Response :=
  if sec.outgoing_relocations.contains node_name then
    let dst' := toU64 (H.rehash (H.newFromU64 dst))
    [Response.RelocateRequest sec.pfx dst' node_name]
  else []

end Section

/-- Iterated-reject experiment for a fixed section: each round delivers
a `RelocateReject` with the current destination to the section (whose
state cannot change, `handle_relocate_reject` taking `&self`), counts
the emitted `RelocateRequest`, and feeds the rehashed destination it
carries into the next round. -/
def repeatedRejects (H : HashFns) (sec : Section) (node_name : Name) :
    Nat → Name → Nat
  | 0, _ => 0
  | k + 1, dst =>
    match Section.handle_relocate_reject H sec dst node_name with
    | [Response.RelocateRequest _ dst' _] => 1 + repeatedRejects H sec node_name k dst'
    | _ => 0

/-- Handling a sequence of `Live` joins (the `handle_requests` dispatch
loop of src/section.rs lines 77–107 restricted to `Live` requests),
concatenating the emitted responses. -/
def runLives (H : HashFns) (params : Params) (a : Nat) :
    List Name → Section → Option (Section × List Response)
  | [], sec => some (sec, [])
  | n :: ns, sec => do
    let r1 ← Section.handle_live H params sec (Node.new n a)
    let r2 ← runLives H params a ns r1.1
    pure (r2.1, r1.2 ++ r2.2)

/-- The network state the size check needs (src/network.rs lines 13–17);
stats and the RNG are external. -/
structure Network where
  params : Params
  sections : List (Pfx × Section)

/-- `Network::check_section_sizes` (src/network.rs lines 278–301):
`false` when some section holds more than `max_section_size` nodes. -/
def check_section_sizes (net : Network) : Bool :=
  match (net.sections.map Prod.snd).find?
      (fun sec => net.params.max_section_size < sec.nodes.length) with
  | some _ => false
  | none => true

/-- The tail of `Network::tick` (src/network.rs lines 35–55): after
message handling and stats recording, the result of
`check_section_sizes` is bound to `_` and discarded, and `true` is
returned unconditionally. -/
def tick_result_after_handling (net : Network) : Bool :=
  let _ := check_section_sizes net
  true

/-! Concrete fixtures used by witnesses and counterexamples. -/

/-- A concrete instantiation of the abstract hash functions, used only
to build closed witness statements. -/
def trivialHash : HashFns :=
  { blockHash := fun b => b.name + b.age, rehash := fun h => h + 1,
    newFromU64 := fun n => n }

/-- The default parameters of `main.rs` (§6). -/
def paramsDefault : Params :=
  { group_size := 8, init_age := 4, adult_age := 5, max_section_size := 60,
    max_relocation_attempts := 25, max_infants_per_section := 1 }

/-- Default parameters with `max_section_size = 1`. -/
def paramsTiny : Params := { paramsDefault with max_section_size := 1 }

/-- Default parameters with `max_relocation_attempts = 1`. -/
def paramsOneAttempt : Params := { paramsDefault with max_relocation_attempts := 1 }

/-- A root section holding two nodes. -/
def secOverfull : Section :=
  { Section.new Pfx.EMPTY with nodes := [(0, Node.new 0 5), (1, Node.new 1 5)] }

/-- A network whose only section exceeds `paramsTiny.max_section_size`. -/
def netOverfull : Network := ⟨paramsTiny, [(Pfx.EMPTY, secOverfull)]⟩

/-- A section with one adult node awaiting relocation acceptance. -/
def secAwaiting : Section :=
  { Section.new ⟨0, 1⟩ with
    nodes := [(3, ⟨3, 6, false⟩)], outgoing_relocations := [3] }

/-! Claim theorems. -/

/-- C1: the claim says `Network::tick` reports failure (returns `false`)
when some section exceeds `max_section_size` after response processing.
The code discards the result of `check_section_sizes` (`let _ = ...`,
src/network.rs line 52) and returns `true` unconditionally, contradicting
`tick`'s own doc comment: on a network whose only section holds 2 nodes
with `max_section_size = 1`, the size check fails yet the tick still
reports success. -/
theorem C1_tick_ignores_size_check :
    check_section_sizes netOverfull = false ∧
    tick_result_after_handling netOverfull = true :=
  ⟨rfl, rfl⟩

/-- C2 counterexample: with `max_relocation_attempts = 1`, a section
that keeps receiving `RelocateReject` for its outgoing node emits a
fresh `RelocateRequest` on every reject — here two rejects yield two
requests, exceeding the claimed bound, while the node is still present
and `outgoing_relocations` is still non-empty (the handler takes `&self`
and cannot change the section). -/
theorem C2_counterexample :
    paramsOneAttempt.max_relocation_attempts = 1 ∧
    secAwaiting.outgoing_relocations = [3] ∧
    mapContains secAwaiting.nodes 3 = true ∧
    repeatedRejects trivialHash secAwaiting 3 2 10 = 2 := by
  refine ⟨rfl, rfl, rfl, ?_⟩
  decide

/-- C2 amended: `handle_relocate_reject` never mutates the section and
emits exactly one fresh `RelocateRequest` per reject while the node name
stays in `outgoing_relocations`, so under `k` repeated rejects the
section emits exactly `k` requests — unbounded in `k`, not bounded by
`max_relocation_attempts` (which only limits the rehashing loop inside
one `try_relocate` call). -/
theorem C2_amended_unbounded (H : HashFns) (sec : Section) (nm : Name) (k : Nat)
    (dst : Name) (h : sec.outgoing_relocations.contains nm = true) :
    repeatedRejects H sec nm k dst = k := by
  induction k generalizing dst with
  | zero => rfl
  | succ k ih =>
    have hm : nm ∈ sec.outgoing_relocations := by simpa using h
    simp [repeatedRejects, Section.handle_relocate_reject, hm, ih, Nat.add_comm]

/-- C2 amended, witness: the amended theorem applied to the concrete
awaiting section for five rejects. -/
theorem C2_amended_witness :
    secAwaiting.outgoing_relocations.contains 3 = true ∧
    repeatedRejects trivialHash secAwaiting 3 5 10 = 5 :=
  ⟨by decide, C2_amended_unbounded trivialHash secAwaiting 3 5 10 (by decide)⟩

/-- C6: when the section's adults are at most `group_size`, or
`outgoing_relocations` is non-empty, `try_relocate` returns no responses
and leaves the whole section state unchanged (the two early returns at
src/section.rs lines 441–448). -/
theorem C6_try_relocate_noop (H : HashFns) (params : Params) (sec : Section) (b : Block)
    (h : count_adults params (mapValues sec.nodes) ≤ params.group_size ∨
         sec.outgoing_relocations ≠ []) :
    Section.try_relocate H params sec b = (sec, []) := by
  unfold Section.try_relocate
  split_ifs with h1 h2
  · rfl
  · rfl
  · exfalso
    rcases h with h | h
    · exact h1 h
    · simp only [Bool.not_eq_true, Bool.not_eq_true'] at h2
      cases he : sec.outgoing_relocations.isEmpty with
      | false => exact h2 he
      | true => exact h (List.isEmpty_iff.mp he)

/-- C6 witness: the no-op instance on the concrete awaiting section
(one adult ≤ `group_size = 8`, and non-empty outgoing cache). -/
theorem C6_witness :
    (count_adults paramsDefault (mapValues secAwaiting.nodes) ≤ paramsDefault.group_size ∨
      secAwaiting.outgoing_relocations ≠ []) ∧
    Section.try_relocate trivialHash paramsDefault secAwaiting (Block.new Event.Live 3 6) =
      (secAwaiting, []) :=
  ⟨Or.inl (by decide),
   C6_try_relocate_noop trivialHash paramsDefault secAwaiting (Block.new Event.Live 3 6)
     (Or.inl (by decide))⟩

/-- C8: a section already in `Merging(P)` that handles `Merge(P)` is a
no-op — `is_ancestor` is reflexive, so the request is ignored
(src/section.rs lines 175–178). -/
theorem C8_merge_idempotent (sec : Section) (P : Pfx)
    (h : sec.state = State.Merging P) :
    Section.handle_merge sec P = (sec, []) := by
  unfold Section.handle_merge
  rw [h]
  have hanc : P.is_ancestor P = true := by
    simp [Pfx.is_ancestor]
  simp [hanc]

/-- A map without the key removes nothing. -/
theorem mapRemove_of_not_contains {α : Type} (m : List (Name × α)) (k : Name)
    (h : mapContains m k = false) : mapRemove m k = none := by
  unfold mapRemove
  have hf : m.find? (fun kv => kv.1 == k) = none := by
    rw [List.find?_eq_none]
    intro kv hkv
    simp only [mapContains] at h
    intro hbeq
    have : m.any (fun kv => kv.1 == k) = true := List.any_eq_true.mpr ⟨kv, hkv, hbeq⟩
    rw [h] at this
    exact Bool.false_ne_true this
  rw [hf]

/-- C9: in a Stable section, accepting a relocation for a name that is
in `outgoing_relocations` but absent from `nodes` consumes the outgoing
entry and produces no response (src/section.rs lines 300–312: the set
entry is removed before the node lookup fails). -/
theorem C9_accept_without_node (sec : Section) (dst nm : Name)
    (hs : sec.state = State.Stable)
    (hout : sec.outgoing_relocations.contains nm = true)
    (hnode : mapContains sec.nodes nm = false) :
    Section.handle_relocate_accept sec dst nm =
      some ({ sec with
              outgoing_relocations := sec.outgoing_relocations.filter (fun x => x != nm) },
            []) := by
  have hm : nm ∈ sec.outgoing_relocations := by simpa using hout
  unfold Section.handle_relocate_accept Section.forward
  simp [hs, setRemove, hm, mapRemove_of_not_contains _ _ hnode]

/-- C9 witness: accepting for name 4, which is outgoing but not a node
of the fixture section. -/
theorem C9_witness :
    ({ secAwaiting with outgoing_relocations := [4] } : Section).state = State.Stable ∧
    ({ secAwaiting with outgoing_relocations := [4] } : Section).outgoing_relocations.contains 4
      = true ∧
    mapContains ({ secAwaiting with outgoing_relocations := [4] } : Section).nodes 4 = false ∧
    Section.handle_relocate_accept { secAwaiting with outgoing_relocations := [4] } 9 4 =
      some ({ secAwaiting with
              outgoing_relocations :=
                ([4] : List Name).filter (fun x => x != 4) }, []) :=
  ⟨rfl, by decide, by decide,
   C9_accept_without_node { secAwaiting with outgoing_relocations := [4] } 9 4 rfl
     (by decide) (by decide)⟩

/-- C5: `handle_relocate_request` replies `RelocateReject` exactly when
`incoming_relocations` is non-empty or the section holds at least
`max_section_size` nodes; otherwise it records the incoming promise and
replies `RelocateAccept` (src/section.rs lines 275–284). -/
theorem C5_relocate_request_guard (params : Params) (sec : Section) (src : Pfx)
    (dst nm : Name) :
    (Section.handle_relocate_request params sec src dst nm
        = (sec, [Response.Send src (Request.RelocateReject dst nm)])
      ↔ (sec.incoming_relocations ≠ [] ∨ params.max_section_size ≤ sec.nodes.length))
    ∧ (sec.incoming_relocations = [] → sec.nodes.length < params.max_section_size →
        Section.handle_relocate_request params sec src dst nm
          = ({ sec with incoming_relocations := mapInsert sec.incoming_relocations nm dst },
             [Response.Send src (Request.RelocateAccept dst nm)])) := by
  unfold Section.handle_relocate_request
  by_cases hin : sec.incoming_relocations = []
  · by_cases hsz : params.max_section_size ≤ sec.nodes.length
    · constructor
      · simp [hin, hsz]
      · intro _ h2
        omega
    · have hguard : (!sec.incoming_relocations.isEmpty
          || decide (params.max_section_size ≤ sec.nodes.length)) = false := by
        simp [hin, hsz]
      rw [if_neg (by simp [hguard])]
      constructor
      · constructor
        · intro heq
          exact absurd (congrArg Prod.snd heq) (by simp)
        · intro hor
          rcases hor with hor | hor
          · exact absurd hin hor
          · exact absurd hor hsz
      · intro _ _
        rfl
  · constructor
    · simp [hin, List.isEmpty_eq_false.mpr hin]
    · intro h1
      exact absurd h1 hin

/-- C5 witness: the fixture section has empty incoming cache and one
node, so the request is accepted; with `max_section_size = 1` it is
rejected. -/
theorem C5_witness :
    (Section.handle_relocate_request paramsTiny secAwaiting ⟨1, 1⟩ 9 42
        = (secAwaiting, [Response.Send ⟨1, 1⟩ (Request.RelocateReject 9 42)])
      ↔ (secAwaiting.incoming_relocations ≠ [] ∨
         paramsTiny.max_section_size ≤ secAwaiting.nodes.length)) ∧
    (secAwaiting.incoming_relocations = [] →
      secAwaiting.nodes.length < paramsTiny.max_section_size →
      Section.handle_relocate_request paramsTiny secAwaiting ⟨1, 1⟩ 9 42
        = ({ secAwaiting with
             incoming_relocations := mapInsert secAwaiting.incoming_relocations 42 9 },
           [Response.Send ⟨1, 1⟩ (Request.RelocateAccept 9 42)])) :=
  C5_relocate_request_guard paramsTiny secAwaiting ⟨1, 1⟩ 9 42

/-- Below the maximum length, the two children of a prefix are proper:
they differ from the prefix itself (their length grew by one). -/
theorem splitp_ne_of_len_lt (p : Pfx) (h : p.len < 64) :
    ((p.splitp.1 == p) || (p.splitp.2 == p)) = false := by
  unfold Pfx.splitp
  rw [if_neg (by omega)]
  simp only [Bool.or_eq_false_iff, beq_eq_false_iff_ne]
  constructor
  · intro hcon
    have := congrArg Pfx.len hcon
    simp at this
  · intro hcon
    have := congrArg Pfx.len hcon
    simp at this

/-- Shared helper: `try_split` below the adult limit is `some (sec, [])`
— no responses and no state change. -/
theorem try_split_noop (H : HashFns) (params : Params) (sec : Section)
    (hlen : sec.pfx.len < 64)
    (h : ¬(2 * params.group_size - params.quorum ≤
             count_matching_adults params sec.pfx.splitp.1 (mapValues sec.nodes) ∧
           2 * params.group_size - params.quorum ≤
             count_matching_adults params sec.pfx.splitp.2 (mapValues sec.nodes))) :
    Section.try_split H params sec = some (sec, []) := by
  unfold Section.try_split
  have h1 := splitp_ne_of_len_lt sec.pfx hlen
  simp only [Bool.or_eq_false_iff, beq_eq_false_iff_ne] at h1
  rw [if_neg (by simp [h1.1, h1.2])]
  rw [if_neg (by simpa using h)]

/-- C7: when not both child prefixes hold at least
`limit = 2 * group_size - quorum` matching adults, `try_split` emits no
responses and is a no-op on the entire section state (src/section.rs
lines 354, 407–409). -/
theorem C7_split_below_limit_noop (H : HashFns) (params : Params) (sec : Section)
    (hlen : sec.pfx.len < 64)
    (h : ¬(2 * params.group_size - params.quorum ≤
             count_matching_adults params sec.pfx.splitp.1 (mapValues sec.nodes) ∧
           2 * params.group_size - params.quorum ≤
             count_matching_adults params sec.pfx.splitp.2 (mapValues sec.nodes))) :
    Section.try_split H params sec = some (sec, []) :=
  try_split_noop H params sec hlen h

/-- C7 witness: the two-node root section is far below the limit of 11,
so splitting it is a no-op. -/
theorem C7_witness :
    secOverfull.pfx.len < 64 ∧
    Section.try_split trivialHash paramsDefault secOverfull = some (secOverfull, []) :=
  ⟨by decide,
   C7_split_below_limit_noop trivialHash paramsDefault secOverfull (by decide)
     (by decide)⟩

/-- A prefix matches every name it was substituted into. -/
theorem pmatches_substituted (p : Pfx) (n : Name) :
    p.pmatches (p.substituted_in n) = true := by
  unfold Pfx.pmatches Pfx.substituted_in
  have hK : 0 < 2 ^ (64 - p.len) := Nat.pos_pow_of_pos _ (by norm_num)
  rw [mul_comm, Nat.mul_add_div hK, Nat.div_eq_of_lt (Nat.mod_lt _ hK), Nat.add_zero]
  exact beq_self_eq_true _

/-- C10: whenever the first child does not hold strictly fewer matching
adults than the second — in particular on a tie — the relocated node's
new name is placed under the second child `P·1`
(src/section.rs lines 244–248: the `else` branch); and in a Stable
section with the incoming promise present, `handle_relocate` feeds
exactly that name (at the node's age) back into `handle_live`. -/
theorem C10_tie_goes_to_second_child (H : HashFns) (params : Params) (sec : Section)
    (dst : Name) (node : Node) (rand : Name)
    (hs : sec.state = State.Stable)
    (hin : mapContains sec.incoming_relocations node.name = true)
    (hc : count_matching_adults params sec.pfx.splitp.2 (mapValues sec.nodes) ≤
          count_matching_adults params sec.pfx.splitp.1 (mapValues sec.nodes)) :
    Section.relocate_target params sec rand = sec.pfx.splitp.2.substituted_in rand ∧
    sec.pfx.splitp.2.pmatches (Section.relocate_target params sec rand) = true ∧
    Section.handle_relocate H params sec dst node rand =
      Section.handle_live H params
        { sec with incoming_relocations :=
            sec.incoming_relocations.filter (fun kv => kv.1 != node.name) }
        (Node.new (Section.relocate_target params sec rand) node.age) := by
  have htgt : Section.relocate_target params sec rand =
      sec.pfx.splitp.2.substituted_in rand := by
    unfold Section.relocate_target
    rw [if_neg (by omega)]
  refine ⟨htgt, ?_, ?_⟩
  · rw [htgt]
    exact pmatches_substituted _ _
  · obtain ⟨kv, hfind⟩ : ∃ kv, sec.incoming_relocations.find?
        (fun kv => kv.1 == node.name) = some kv := by
      simp only [mapContains, List.any_eq_true] at hin
      exact Option.isSome_iff_exists.mp (List.find?_isSome.mpr hin)
    have hrem : mapRemove sec.incoming_relocations node.name =
        some (kv.2, sec.incoming_relocations.filter (fun kv => kv.1 != node.name)) := by
      unfold mapRemove
      rw [hfind]
    unfold Section.handle_relocate Section.forward
    simp only [hs, hrem]
    rfl

/-- A key outside the key list is not contained. -/
theorem mapContains_eq_false_of_not_mem {α : Type} (m : List (Name × α)) (k : Name)
    (h : k ∉ m.map Prod.fst) : mapContains m k = false := by
  unfold mapContains
  rw [Bool.eq_false_iff]
  intro hcon
  obtain ⟨kv, hkv, hbeq⟩ := List.any_eq_true.mp hcon
  exact h (List.mem_map.mpr ⟨kv, hkv, by simpa using hbeq⟩)

/-- Inserting a fresh key appends the binding. -/
theorem mapInsert_of_not_contains {α : Type} (m : List (Name × α)) (k : Name) (v : α)
    (h : mapContains m k = false) : mapInsert m k v = m ++ [(k, v)] := by
  unfold mapInsert
  rw [h]
  rfl

/-- Folding `elder_step` over entries that are all in the new elder set
(and whose old-elder membership certifies the flag) sets every elder
flag, appending to the accumulated node list; the chain and promotion
accumulators are left existential. -/
theorem elder_fold_promotes (old newE : List Name) :
    ∀ (l : List (Name × Node)) (accN : List (Name × Node)) (accC : Chain)
      (accP : List Node),
    (∀ kv ∈ l, newE.contains kv.2.name = true ∧
       (old.contains kv.2.name = true → kv.2.elder = true)) →
    ∃ c : Chain, ∃ p : List Node,
      l.foldl (Section.elder_step old newE) (accN, accC, accP) =
        (accN ++ l.map (fun kv => (kv.1, { kv.2 with elder := true })), c, p) := by
  intro l
  induction l with
  | nil =>
    intro accN accC accP _
    exact ⟨accC, accP, by simp⟩
  | cons kv rest ih =>
    intro accN accC accP h
    obtain ⟨hn, ho⟩ := h kv (List.mem_cons_self _ _)
    rw [List.foldl_cons]
    by_cases holdm : old.contains kv.2.name = true
    · have helder : kv.2.elder = true := ho holdm
      have hstep : Section.elder_step old newE (accN, accC, accP) kv =
          (accN ++ [(kv.1, kv.2)], accC, accP) := by
        simp only [Section.elder_step]
        rw [holdm, hn]
        simp
      rw [hstep]
      obtain ⟨c, p, hcp⟩ :=
        ih (accN ++ [(kv.1, kv.2)]) accC accP (fun kv2 h2 => h _ (List.mem_cons_of_mem _ h2))
      refine ⟨c, p, ?_⟩
      rw [hcp]
      have hkv2 : ({ kv.2 with elder := true } : Node) = kv.2 := by
        obtain ⟨k1, v⟩ := kv
        obtain ⟨nm, ag, el⟩ := v
        simp only at helder
        rw [helder]
      rw [List.map_cons, hkv2]
      simp
    · have holdf : old.contains kv.2.name = false := Bool.eq_false_iff.mpr holdm
      have hstep : Section.elder_step old newE (accN, accC, accP) kv =
          (accN ++ [(kv.1, kv.2.promote)], accC.insert Event.Live kv.2.name kv.2.age,
           accP ++ [Node.new kv.2.name kv.2.age]) := by
        simp only [Section.elder_step]
        rw [holdf, hn]
        simp
      rw [hstep]
      obtain ⟨c, p, hcp⟩ :=
        ih (accN ++ [(kv.1, kv.2.promote)]) (accC.insert Event.Live kv.2.name kv.2.age)
          (accP ++ [Node.new kv.2.name kv.2.age])
          (fun kv2 h2 => h _ (List.mem_cons_of_mem _ h2))
      refine ⟨c, p, ?_⟩
      rw [hcp]
      rw [List.map_cons]
      simp [Node.promote]

/-- With at most `group_size` nodes, keys equal to node names and no
duplicate names, `update_elders` with `relocate = false` promotes every
node to elder, emits nothing, and modifies only `nodes` and `chain`. -/
theorem update_elders_small (H : HashFns) (params : Params) (sec : Section)
    (hkeys : ∀ kv ∈ sec.nodes, kv.1 = kv.2.name)
    (hnd : (sec.nodes.map Prod.fst).Nodup)
    (hlen : sec.nodes.length ≤ params.group_size) :
    ∃ sec2 : Section,
      Section.update_elders H params sec false = (sec2, []) ∧
      sec2.pfx = sec.pfx ∧ sec2.state = sec.state ∧
      sec2.requests = sec.requests ∧
      sec2.incoming_relocations = sec.incoming_relocations ∧
      sec2.outgoing_relocations = sec.outgoing_relocations ∧
      sec2.nodes = sec.nodes.map (fun kv => (kv.1, { kv.2 with elder := true })) := by
  have hnames : sec.nodes.map Prod.fst = (mapValues sec.nodes).map Node.name := by
    unfold mapValues
    rw [List.map_map]
    exact List.map_congr_left hkeys
  have htake : (by_age (mapValues sec.nodes)).reverse.take params.group_size
      = (by_age (mapValues sec.nodes)).reverse := by
    apply List.take_of_length_le
    rw [List.length_reverse]
    have hby : (by_age (mapValues sec.nodes)).length = (mapValues sec.nodes).length :=
      (List.mergeSort_perm _ _).length_eq
    rw [hby]
    unfold mapValues
    rw [List.length_map]
    exact hlen
  have hnew : ∀ kv ∈ sec.nodes,
      (((by_age (mapValues sec.nodes)).reverse.take params.group_size).map
        Node.name).contains kv.2.name = true := by
    intro kv hkv
    rw [htake]
    have hv : kv.2 ∈ mapValues sec.nodes := List.mem_map.mpr ⟨kv, hkv, rfl⟩
    have hrev : kv.2 ∈ (by_age (mapValues sec.nodes)).reverse := by
      rw [List.mem_reverse]
      exact ((List.mergeSort_perm _ _).mem_iff).mpr hv
    simpa using List.mem_map.mpr ⟨kv.2, hrev, rfl⟩
  have hvnd : ((mapValues sec.nodes).map Node.name).Nodup := by
    rw [← hnames]
    exact hnd
  have hold : ∀ kv ∈ sec.nodes,
      (((mapValues sec.nodes).filter Node.is_elder).map Node.name).contains kv.2.name
        = true → kv.2.elder = true := by
    intro kv hkv hc
    have hmem0 : kv.2.name ∈ ((mapValues sec.nodes).filter Node.is_elder).map Node.name := by
      simpa using hc
    obtain ⟨node', hmem, hname⟩ := List.mem_map.mp hmem0
    have hel : node'.is_elder = true := (List.mem_filter.mp hmem).2
    have hin : node' ∈ mapValues sec.nodes := (List.mem_filter.mp hmem).1
    have hkv2 : kv.2 ∈ mapValues sec.nodes := List.mem_map.mpr ⟨kv, hkv, rfl⟩
    have heq : node' = kv.2 := List.inj_on_of_nodup_map hvnd hin hkv2 hname
    rw [← heq]
    exact hel
  obtain ⟨c, p, hfold⟩ := elder_fold_promotes _ _ sec.nodes [] sec.chain []
    (fun kv hkv => ⟨hnew kv hkv, hold kv hkv⟩)
  refine ⟨{ sec with
            nodes := sec.nodes.map (fun kv => (kv.1, { kv.2 with elder := true })),
            chain := c }, ?_, rfl, rfl, rfl, rfl, rfl, rfl⟩
  simp only [Section.update_elders]
  rw [hfold]
  simp

/-- A section with at most eight nodes (at `group_size = 8`) cannot
split: fewer than `limit = 11` adults match either child. -/
theorem try_split_noop_small (H : HashFns) (params : Params) (sec : Section)
    (hg : params.group_size = 8) (hlen64 : sec.pfx.len < 64)
    (hsz : sec.nodes.length ≤ 8) :
    Section.try_split H params sec = some (sec, []) := by
  apply try_split_noop H params sec hlen64
  rintro ⟨h1, _⟩
  have hc1 : count_matching_adults params sec.pfx.splitp.1 (mapValues sec.nodes)
      ≤ sec.nodes.length := by
    unfold count_matching_adults mapValues
    calc List.countP _ (sec.nodes.map Prod.snd)
        ≤ (sec.nodes.map Prod.snd).length := List.countP_le_length _
      _ = sec.nodes.length := List.length_map _ _
  simp only [Params.quorum, hg] at h1
  omega

/-- One startup `Live` join on the root section with fewer than eight
nodes: the node enters at `adult_age`, everyone ends an elder, no
responses are emitted. -/
theorem handle_live_startup_step (H : HashFns) (params : Params) (sec : Section)
    (n : Name) (a : Nat) (hg : params.group_size = 8)
    (hpfx : sec.pfx = Pfx.EMPTY) (hst : sec.state = State.Stable)
    (hinv : ∀ kv ∈ sec.nodes,
      kv.1 = kv.2.name ∧ kv.2.age = params.adult_age ∧ kv.2.elder = true)
    (hnd : (sec.nodes.map Prod.fst).Nodup)
    (hfresh : n ∉ sec.nodes.map Prod.fst)
    (hlen : sec.nodes.length < 8) :
    ∃ sec' : Section,
      Section.handle_live H params sec (Node.new n a) = some (sec', []) ∧
      sec'.pfx = Pfx.EMPTY ∧ sec'.state = State.Stable ∧
      sec'.nodes.map Prod.fst = sec.nodes.map Prod.fst ++ [n] ∧
      ∀ kv ∈ sec'.nodes,
        kv.1 = kv.2.name ∧ kv.2.age = params.adult_age ∧ kv.2.elder = true := by
  have hcont : mapContains sec.nodes n = false :=
    mapContains_eq_false_of_not_mem _ _ hfresh
  have hins : mapInsert sec.nodes (Node.new n params.adult_age).name
      (Node.new n params.adult_age) = sec.nodes ++ [(n, Node.new n params.adult_age)] :=
    mapInsert_of_not_contains _ _ _ hcont
  have hkeys1 : ∀ kv ∈ ({ sec with
      nodes := sec.nodes ++ [(n, Node.new n params.adult_age)] } : Section).nodes,
      kv.1 = kv.2.name := by
    intro kv hkv2
    rcases List.mem_append.mp hkv2 with h | h
    · exact (hinv kv h).1
    · rw [List.mem_singleton.mp h]
      rfl
  have hnd1 : (({ sec with
      nodes := sec.nodes ++ [(n, Node.new n params.adult_age)] } : Section).nodes.map
        Prod.fst).Nodup := by
    simp only [List.map_append, List.map_cons, List.map_nil]
    rw [List.nodup_append]
    exact ⟨hnd, List.nodup_singleton _, by simpa using hfresh⟩
  have hlen1 : ({ sec with
      nodes := sec.nodes ++ [(n, Node.new n params.adult_age)] } : Section).nodes.length
        ≤ params.group_size := by
    simp only [List.length_append, List.length_cons, List.length_nil]
    omega
  obtain ⟨S2, hupd, hp2, hs2, _, _, _, hn2⟩ :=
    update_elders_small H params _ hkeys1 hnd1 hlen1
  have hp2' : S2.pfx = Pfx.EMPTY := by
    rw [hp2]
    exact hpfx
  have hs2' : S2.state = sec.state := hs2
  have hlen2 : S2.nodes.length = sec.nodes.length + 1 := by
    rw [hn2]
    simp
  have hsplit : Section.try_split H params S2 = some (S2, []) := by
    apply try_split_noop_small H params S2 hg
    · rw [hp2']
      norm_num [Pfx.EMPTY]
    · omega
  refine ⟨S2, ?_, hp2', hs2'.trans hst, ?_, ?_⟩
  · have hfwd : Section.forward sec (Node.new n a).name = some none := by
      unfold Section.forward
      rw [hst]
    have hbeq : (sec.pfx == Pfx.EMPTY) = true := by simp [hpfx]
    unfold Section.handle_live
    rw [hfwd]
    simp only [Option.bind_eq_bind, Option.some_bind, hbeq, if_true]
    unfold Section.handle_live_post
    simp only [Node.new] at hins hupd
    simp only [Section.add_node, Node.new, hins, hupd, hsplit]
    simp
  · rw [hn2]
    simp [List.map_append]
  · intro kv hkv2
    rw [hn2] at hkv2
    simp only [List.map_append, List.mem_append, List.mem_map] at hkv2
    rcases hkv2 with ⟨kv0, h0, rfl⟩ | ⟨kv0, h0, rfl⟩
    · obtain ⟨hk, ha, _⟩ := hinv kv0 h0
      exact ⟨hk, ha, rfl⟩
    · rw [List.mem_singleton.mp h0]
      exact ⟨rfl, rfl, rfl⟩

/-- Running a list of fresh startup joins preserves the startup
invariant and emits nothing. -/
theorem runLives_startup (H : HashFns) (params : Params) (a : Nat)
    (hg : params.group_size = 8) :
    ∀ (names : List Name) (sec : Section),
    sec.pfx = Pfx.EMPTY → sec.state = State.Stable →
    (∀ kv ∈ sec.nodes,
      kv.1 = kv.2.name ∧ kv.2.age = params.adult_age ∧ kv.2.elder = true) →
    (sec.nodes.map Prod.fst ++ names).Nodup →
    sec.nodes.length + names.length ≤ 8 →
    ∃ sec' : Section,
      runLives H params a names sec = some (sec', []) ∧
      sec'.pfx = Pfx.EMPTY ∧ sec'.state = State.Stable ∧
      sec'.nodes.map Prod.fst = sec.nodes.map Prod.fst ++ names ∧
      ∀ kv ∈ sec'.nodes,
        kv.1 = kv.2.name ∧ kv.2.age = params.adult_age ∧ kv.2.elder = true := by
  intro names
  induction names with
  | nil =>
    intro sec h1 h2 h3 _ _
    exact ⟨sec, rfl, h1, h2, by simp, h3⟩
  | cons n rest ih =>
    intro sec h1 h2 h3 h4 h5
    have hnd0 : (sec.nodes.map Prod.fst).Nodup := (List.nodup_append.mp h4).1
    have hfresh : n ∉ sec.nodes.map Prod.fst := by
      intro hcon
      exact (List.nodup_append.mp h4).2.2 hcon (List.mem_cons_self n rest)
    have hlen0 : sec.nodes.length < 8 := by
      simp only [List.length_cons] at h5
      omega
    obtain ⟨sec1, hstep, p1, p2, p3, p4⟩ :=
      handle_live_startup_step H params sec n a hg h1 h2 h3 hnd0 hfresh hlen0
    have hlen1 : sec1.nodes.length = sec.nodes.length + 1 := by
      have := congrArg List.length p3
      simpa using this
    obtain ⟨sec2, hrec, q1, q2, q3, q4⟩ := ih sec1 p1 p2 p4
      (by
        rw [p3, List.append_assoc]
        simpa using h4)
      (by
        rw [hlen1]
        simp only [List.length_cons] at h5
        omega)
    refine ⟨sec2, ?_, q1, q2, ?_, q4⟩
    · simp only [runLives, hstep, Option.bind_eq_bind, Option.some_bind, hrec]
      rfl
    · rw [q3, p3, List.append_assoc]
      rfl

/-- C3: starting from the single empty-prefix section with
`group_size = 8`, handling eight `Live` requests with pairwise-distinct
names and arbitrary `init_age` emits no responses at all (so no `Split`
and no relocation), and leaves exactly those eight nodes present, each
with `age = adult_age` and the elder flag set. -/
theorem C3_startup_join (H : HashFns) (params : Params) (hg : params.group_size = 8)
    (a : Nat) (names : List Name) (hlen : names.length = 8) (hnd : names.Nodup) :
    ∃ sec : Section,
      runLives H params a names (Section.new Pfx.EMPTY) = some (sec, []) ∧
      sec.nodes.map Prod.fst = names ∧
      sec.nodes.length = 8 ∧
      ∀ kv ∈ sec.nodes, kv.2.age = params.adult_age ∧ kv.2.elder = true := by
  obtain ⟨sec, h1, _, _, h4, h5⟩ := runLives_startup H params a hg names
    (Section.new Pfx.EMPTY) rfl rfl (by intro kv hkv; cases hkv) (by simpa using hnd)
    (by simpa [Section.new] using hlen.le)
  have h4' : sec.nodes.map Prod.fst = names := by simpa using h4
  refine ⟨sec, h1, h4', ?_, fun kv hkv => ⟨(h5 kv hkv).2.1, (h5 kv hkv).2.2⟩⟩
  have := congrArg List.length h4'
  simpa [hlen] using this

/-- C3 witness: the theorem applied to names `0..7` at the default
parameters (`group_size = 8`, `init_age = 4`). -/
theorem C3_witness :
    paramsDefault.group_size = 8 ∧
    ([0, 1, 2, 3, 4, 5, 6, 7] : List Name).length = 8 ∧
    ([0, 1, 2, 3, 4, 5, 6, 7] : List Name).Nodup ∧
    ∃ sec : Section,
      runLives trivialHash paramsDefault 4 [0, 1, 2, 3, 4, 5, 6, 7]
          (Section.new Pfx.EMPTY) = some (sec, []) ∧
      sec.nodes.map Prod.fst = [0, 1, 2, 3, 4, 5, 6, 7] ∧
      sec.nodes.length = 8 ∧
      ∀ kv ∈ sec.nodes, kv.2.age = paramsDefault.adult_age ∧ kv.2.elder = true :=
  ⟨rfl, rfl, by decide,
   C3_startup_join trivialHash paramsDefault rfl 4 [0, 1, 2, 3, 4, 5, 6, 7] rfl (by decide)⟩

/-- A Stable section at prefix `0` with one pending incoming
relocation and no nodes (so the two child adult counts tie at 0). -/
def secIncoming : Section :=
  { Section.new ⟨0, 1⟩ with incoming_relocations := [(42, 9)] }

/-- C10 witness: on the tie (0 = 0 matching adults per child) the
relocated node's new name goes under child `01`. -/
theorem C10_witness :
    secIncoming.state = State.Stable ∧
    mapContains secIncoming.incoming_relocations (Node.new 42 6).name = true ∧
    count_matching_adults paramsDefault secIncoming.pfx.splitp.2 (mapValues secIncoming.nodes) ≤
      count_matching_adults paramsDefault secIncoming.pfx.splitp.1 (mapValues secIncoming.nodes) ∧
    (Section.relocate_target paramsDefault secIncoming 7 =
        secIncoming.pfx.splitp.2.substituted_in 7 ∧
      secIncoming.pfx.splitp.2.pmatches (Section.relocate_target paramsDefault secIncoming 7)
        = true ∧
      Section.handle_relocate trivialHash paramsDefault secIncoming 9 (Node.new 42 6) 7 =
        Section.handle_live trivialHash paramsDefault
          { secIncoming with
            incoming_relocations :=
              secIncoming.incoming_relocations.filter
                (fun kv => kv.1 != (Node.new 42 6).name) }
          (Node.new (Section.relocate_target paramsDefault secIncoming 7)
            (Node.new 42 6).age)) :=
  ⟨rfl, by decide, by decide,
   C10_tie_goes_to_second_child trivialHash paramsDefault secIncoming 9 (Node.new 42 6) 7
     rfl (by decide) (by decide)⟩

/-- XOR cancellation on the right. -/
theorem xor_right_cancel_eq (a b x : Nat) (h : a ^^^ x = b ^^^ x) : a = b := by
  have := congrArg (fun y => y ^^^ x) h
  simpa [Nat.xor_assoc] using this

/-- The XOR fold over the names is invariant under permutation. -/
theorem xorNames_perm (l l' : List Node) (h : l.Perm l') :
    Section.xorNames l = Section.xorNames l' := by
  haveI : RightCommutative (fun (total : Nat) (node : Node) => total ^^^ node.name) := by
    constructor
    intro b a1 a2
    simp [Nat.xor_assoc, Nat.xor_comm a1.name a2.name]
  exact h.foldl_eq 0

/-- `sortByKey` permutes its input. -/
theorem sortByKey_perm {α : Type} (key : α → Nat) (l : List α) :
    (sortByKey key l).Perm l :=
  List.mergeSort_perm l _

/-- The head of a `sortByKey` result minimises the key over the input
list. -/
theorem sortByKey_head_min {α : Type} (key : α → Nat) (l : List α) (c : α)
    (rest : List α) (h : sortByKey key l = c :: rest) :
    ∀ d ∈ l, key c ≤ key d := by
  intro d hd
  unfold sortByKey at h
  have hperm := List.mergeSort_perm l (fun a b => key a ≤ key b)
  rw [h] at hperm
  have hd' : d ∈ c :: rest := hperm.mem_iff.mpr hd
  rcases List.mem_cons.mp hd' with rfl | hd'
  · exact le_refl _
  · have htrans : ∀ a b c2 : α, (decide (key a ≤ key b)) = true →
        (decide (key b ≤ key c2)) = true → (decide (key a ≤ key c2)) = true := by
      intro a b c2 h1 h2
      simp only [decide_eq_true_eq] at *
      omega
    have htotal : ∀ a b : α, ((decide (key a ≤ key b)) || (decide (key b ≤ key a))) = true := by
      intro a b
      simp only [Bool.or_eq_true, decide_eq_true_eq]
      omega
    have hp := @List.sorted_mergeSort α (fun a b => decide (key a ≤ key b)) htrans htotal l
    rw [h] at hp
    have := (List.pairwise_cons.mp hp).1 d hd'
    simpa using this

/-- `break_ties` on a non-empty list returns the name of a member whose
`name XOR total` key is minimal. -/
theorem break_ties_spec (l : List Node) (hne : l ≠ []) :
    ∃ c ∈ l, Section.break_ties l = some c.name ∧
      ∀ d ∈ l, c.name ^^^ Section.xorNames l ≤ d.name ^^^ Section.xorNames l := by
  cases hs : sortByKey (fun node => node.name ^^^ Section.xorNames l) l with
  | nil =>
    exfalso
    apply hne
    have hperm := sortByKey_perm (fun node => node.name ^^^ Section.xorNames l) l
    rw [hs] at hperm
    exact hperm.nil_eq.symm
  | cons c rest =>
    have hperm := sortByKey_perm (fun node => node.name ^^^ Section.xorNames l) l
    rw [hs] at hperm
    refine ⟨c, hperm.mem_iff.mp (List.mem_cons_self c rest), ?_, ?_⟩
    · simp only [Section.break_ties]
      rw [hs]
      rfl
    · exact sortByKey_head_min _ l c rest hs

/-- C4: on a candidate list with pairwise-distinct names, `break_ties`
returns the unique candidate minimising `name XOR X` (`X` the XOR of all
candidate names), and the returned value is invariant under any
permutation of the candidate list (src/section.rs lines 634–638). -/
theorem C4_break_ties_det (l : List Node) (hne : l ≠ [])
    (hnd : (l.map Node.name).Nodup) :
    (∃ c ∈ l, Section.break_ties l = some c.name ∧
       ∀ d ∈ l, d ≠ c →
         c.name ^^^ Section.xorNames l < d.name ^^^ Section.xorNames l) ∧
    (∀ l' : List Node, l'.Perm l → Section.break_ties l' = Section.break_ties l) := by
  constructor
  · obtain ⟨c, hc, heq, hmin⟩ := break_ties_spec l hne
    refine ⟨c, hc, heq, ?_⟩
    intro d hd hdc
    have hle := hmin d hd
    rcases lt_or_eq_of_le hle with hlt | heq2
    · exact hlt
    · exfalso
      have hnm : c.name = d.name := xor_right_cancel_eq _ _ _ heq2
      exact hdc (List.inj_on_of_nodup_map hnd hd hc hnm.symm)
  · intro l' hperm
    have hne' : l' ≠ [] := by
      intro hcon
      rw [hcon] at hperm
      exact hne hperm.nil_eq.symm
    have hX : Section.xorNames l' = Section.xorNames l := xorNames_perm _ _ hperm
    obtain ⟨c, hcl, heq, hmin⟩ := break_ties_spec l hne
    obtain ⟨c', hcl', heq', hmin'⟩ := break_ties_spec l' hne'
    rw [heq, heq']
    have h1 := hmin c' (hperm.mem_iff.mp hcl')
    have h2 := hmin' c (hperm.mem_iff.mpr hcl)
    rw [hX] at h2
    have hkey : c'.name ^^^ Section.xorNames l = c.name ^^^ Section.xorNames l :=
      le_antisymm h2 h1
    rw [xor_right_cancel_eq _ _ _ hkey]

/-- C4 witness: three candidates with distinct names; the theorem
applied at this concrete list. -/
theorem C4_witness :
    ([⟨1, 5, false⟩, ⟨2, 5, false⟩, ⟨3, 5, false⟩] : List Node) ≠ [] ∧
    (([⟨1, 5, false⟩, ⟨2, 5, false⟩, ⟨3, 5, false⟩] : List Node).map Node.name).Nodup ∧
    ((∃ c ∈ ([⟨1, 5, false⟩, ⟨2, 5, false⟩, ⟨3, 5, false⟩] : List Node),
        Section.break_ties [⟨1, 5, false⟩, ⟨2, 5, false⟩, ⟨3, 5, false⟩] = some c.name ∧
        ∀ d ∈ ([⟨1, 5, false⟩, ⟨2, 5, false⟩, ⟨3, 5, false⟩] : List Node), d ≠ c →
          c.name ^^^ Section.xorNames [⟨1, 5, false⟩, ⟨2, 5, false⟩, ⟨3, 5, false⟩] <
            d.name ^^^ Section.xorNames [⟨1, 5, false⟩, ⟨2, 5, false⟩, ⟨3, 5, false⟩]) ∧
      (∀ l' : List Node, l'.Perm [⟨1, 5, false⟩, ⟨2, 5, false⟩, ⟨3, 5, false⟩] →
        Section.break_ties l' =
          Section.break_ties [⟨1, 5, false⟩, ⟨2, 5, false⟩, ⟨3, 5, false⟩])) :=
  ⟨by decide, by decide,
   C4_break_ties_det [⟨1, 5, false⟩, ⟨2, 5, false⟩, ⟨3, 5, false⟩] (by decide) (by decide)⟩

/-- C8 witness: the merging section at prefix `0` merging into the root
again. -/
theorem C8_witness :
    ({ secAwaiting with state := State.Merging Pfx.EMPTY } : Section).state =
      State.Merging Pfx.EMPTY ∧
    Section.handle_merge { secAwaiting with state := State.Merging Pfx.EMPTY } Pfx.EMPTY =
      ({ secAwaiting with state := State.Merging Pfx.EMPTY }, []) :=
  ⟨rfl, C8_merge_idempotent _ Pfx.EMPTY rfl⟩

end Datachains
